import Mathlib

/-!
Verification of the kernel-dictionary PDF engine of `frankenz/pdf.py`.

The Python source is shallowly embedded over exact rational arithmetic:

* numpy float arrays become `List ℚ`; integer index arrays become `List ℤ`;
* numpy/Python indexing `xs[i]` (negative indices wrap once; out-of-range
  raises `IndexError`) is `npGet : List α → ℤ → Option α`, `none` = raise;
* Python slicing `xs[a:b]` (negative bounds wrap, then both are clamped
  into `[0, len]`) is `pySlice`;
* numpy in-place slice addition `pdf[a:b] += arr` is `addSlice`, `none`
  modelling the shape-mismatch `ValueError`;
* `astype('int')` C-cast truncation toward zero is `truncQ`;
  `np.round` / `.round()` round-half-to-even is `nround`;
  `np.ceil(...).astype(int)` is `Int.ceil`;
* `np.cumsum` is `cumsum`, `np.max` on a non-empty array is `maxQ`
  (and `min(...)` is `minQ`);
* the transcendental Gaussian evaluator `gaussian(mu, std, x)` of pdf.py is
  kept as an explicit function parameter `g : ℚ → ℚ → ℚ → ℚ`: every result
  below holds for an arbitrary pointwise kernel evaluator, with strict
  positivity of the sampled kernel values (true of the real Gaussian) taken
  as a hypothesis where a proof needs it.  All control flow, index
  arithmetic and lengths in the source are independent of the sampled
  values, so this parametrisation loses nothing.

Fallible code returns `Option`: `none` is an uncaught Python exception.
-/

namespace Frankenz

/-- numpy/Python element indexing `xs[i]`: a negative index wraps once by
`+ len`; an index that is still out of range raises (`none`). -/
def npGet {α : Type} (xs : List α) (i : ℤ) : Option α :=
  let j : ℤ := if i < 0 then i + xs.length else i
  if 0 ≤ j then xs[j.toNat]? else none

/-- Python slice-bound normalisation: a negative bound wraps once by `+ len`
and is then clamped below by `0`; a nonnegative bound is clamped above
by `len`. -/
def pyClip (n : ℕ) (i : ℤ) : ℕ :=
  if i < 0 then (i + n).toNat else min i.toNat n

/-- Python slicing `xs[a:b]` (step 1): never raises, may be empty. -/
def pySlice {α : Type} (xs : List α) (a b : ℤ) : List α :=
  let a' := pyClip xs.length a
  let b' := pyClip xs.length b
  (xs.drop a').take (b' - a')

/-- numpy in-place slice addition `pdf[a:b] += c`.  The slice and `c` must
have the same length (or `c` has length 1 and broadcasts); a shape mismatch
raises `ValueError` (`none`). -/
def addSlice (pdf : List ℚ) (a b : ℤ) (c : List ℚ) : Option (List ℚ) :=
  let a' := pyClip pdf.length a
  let b' := pyClip pdf.length b
  let len := b' - a'
  if c.length = len then
    some (pdf.take a' ++ List.zipWith (fun u v => u + v) ((pdf.drop a').take len) c
          ++ pdf.drop (a' + len))
  else if c.length = 1 then
    some (pdf.take a' ++ ((pdf.drop a').take len).map (fun u => u + c.headD 0)
          ++ pdf.drop (a' + len))
  else none

/-- C-style cast to int (`astype('int')`): truncation toward zero. -/
def truncQ (q : ℚ) : ℤ := if q < 0 then -⌊-q⌋ else ⌊q⌋

/-- numpy `round`: round half to even. -/
def nround (q : ℚ) : ℤ :=
  let f := ⌊q⌋
  let r := q - f
  if r < 1/2 then f
  else if 1/2 < r then f + 1
  else if f % 2 = 0 then f else f + 1

/-- `np.cumsum`: running prefix sums, same length as the input. -/
def cumsum (xs : List ℚ) : List ℚ :=
  (List.range xs.length).map (fun i => (xs.take (i+1)).sum)

/-- `np.max` / Python `max` of a non-empty array (`0` is a junk value for the
empty case, in which the real code raises before using it). -/
def maxQ : List ℚ → ℚ
  | [] => 0
  | a :: as => as.foldl max a

/-- Python `min` of a non-empty array (junk `0` on empty, as for `maxQ`). -/
def minQ : List ℚ → ℚ
  | [] => 0
  | a :: as => as.foldl min a

/-! ## Observation selection (pdf.py lines 407-415 and 488-496)

Both `gauss_kde` and `gauss_kde_dict` share the same thresholding block. -/

/-- Amplitude thresholding `np.arange(Ny)[y_wt > wt_thresh * np.max(y_wt)]`
(pdf.py line 490), for `len(y_wt) = Ny`. -/
def selWt (ws : List ℚ) (t : ℚ) : List ℕ :=
  (List.range ws.length).filter (fun j => decide (t * maxQ ws < ws.getD j 0))

/-- Stable ascending insertion of index `j` (keyed by `ws`) into an already
sorted index list: equal keys keep their original (index) order. -/
def insertIdx (ws : List ℚ) (j : ℕ) : List ℕ → List ℕ
  | [] => [j]
  | k :: ks => if ws.getD k 0 ≤ ws.getD j 0 then k :: insertIdx ws j ks else j :: k :: ks

/-- `np.argsort(y_wt)` (ascending).  numpy's default quicksort leaves the
relative order of equal weights unspecified; this model fixes the stable
order.  Every property stated below about `selCdf` is insensitive to the
order of equal weights. -/
def argsortQ (ws : List ℚ) : List ℕ :=
  (List.range ws.length).foldl (fun acc j => insertIdx ws j acc) []

/-- CDF thresholding (pdf.py lines 492-496):
`idx_sort = np.argsort(y_wt)`, `y_cdf = np.cumsum(y_wt[idx_sort])`,
`y_cdf /= y_cdf[-1]`, `sel_arr = idx_sort[y_cdf <= (1. - cdf_thresh)]`.
Callers guarantee a non-empty batch (an empty one raises earlier at
`y_cdf[-1]`), so `y_cdf[-1]` is read with a junk default here. -/
def selCdf (ws : List ℚ) (c : ℚ) : List ℕ :=
  let srt := argsortQ ws
  let cums := cumsum (srt.map (fun j => ws.getD j 0))
  let total := cums.getLast?.getD 0
  (srt.zip cums).filterMap (fun p => if p.2 / total ≤ 1 - c then some p.1 else none)

/-- The combined threshold dispatch of pdf.py lines 477-478 and 488-496:
`wt_thresh` (if not `None`) wins; otherwise `cdf_thresh` (if not `None`);
if both are `None` the code substitutes `wt_thresh = -np.inf`, and
`y_wt > -inf * max` then selects everything when `max > 0` and nothing
otherwise (`-inf * 0` is `nan`, and `x > nan`, `x > +inf` are both false). -/
def dictSel (ws : List ℚ) (wt_thresh cdf_thresh : Option ℚ) : List ℕ :=
  match wt_thresh, cdf_thresh with
  | some t, _ => selWt ws t
  | none, some c => selCdf ws c
  | none, none => if 0 < maxQ ws then List.range ws.length else []

/-! ## PDFDict (pdf.py lines 677-751) -/

/-- The state built by `PDFDict.__init__`.  `sigma_dict` holds the sampled
(truncated) kernels, `sigma_dict_cdf` their running cumulative sums. -/
structure PDFDict where
  Ngrid : ℕ
  min : ℚ
  max : ℚ
  delta : ℚ
  grid : List ℚ
  Ndict : ℕ
  sigma_grid : List ℚ
  dsigma : ℚ
  sigma_width : List ℤ
  sigma_dict : List (List ℚ)
  sigma_dict_cdf : List (List ℚ)

/-- `PDFDict.__init__(pdf_grid, sigma_grid, sigma_trunc)` (pdf.py 699-718),
parametrised by the pointwise Gaussian evaluator `g mu std x`.
`pdf_grid[1]` / `sigma_grid[1]` (and `min`/`max` on an empty grid) raise
`IndexError` when either grid has fewer than 2 points — the only failure:
the kernel slice `grid[mid-w : mid+w+1]` is Python slicing, which silently
clamps instead of raising when the window leaves the grid. -/
def PDFDict.init (g : ℚ → ℚ → ℚ → ℚ) (pdf_grid sigma_grid : List ℚ)
    (sigma_trunc : ℚ) : Option PDFDict :=
  if 2 ≤ pdf_grid.length ∧ 2 ≤ sigma_grid.length then
    let Ngrid := pdf_grid.length
    let delta := pdf_grid.getD 1 0 - pdf_grid.getD 0 0
    let dsigma := sigma_grid.getD 1 0 - sigma_grid.getD 0 0
    let widths := sigma_grid.map (fun s => ⌈s * sigma_trunc / delta⌉)
    let mid : ℕ := Ngrid / 2
    let sdict := (sigma_grid.zip widths).map (fun sw =>
      (pySlice pdf_grid ((mid : ℤ) - sw.2) ((mid : ℤ) + sw.2 + 1)).map
        (g (pdf_grid.getD mid 0) sw.1))
    some { Ngrid := Ngrid, min := minQ pdf_grid, max := maxQ pdf_grid,
           delta := delta, grid := pdf_grid,
           Ndict := sigma_grid.length, sigma_grid := sigma_grid, dsigma := dsigma,
           sigma_width := widths, sigma_dict := sdict,
           sigma_dict_cdf := sdict.map cumsum }
  else none

/-- `PDFDict.fit(X, Xe)` (pdf.py 720-751): mean indices by rounding against
the grid spacing (not clamped), sigma indices by rounding against the sigma
spacing, then ceiling (`>= Ndict` becomes `Ndict - 1`) and floor (`< 0`
becomes `0`), applied in that order. -/
def PDFDict.fit (d : PDFDict) (X Xe : List ℚ) : List ℤ × List ℤ :=
  let xIdx := X.map (fun x => nround ((x - d.grid.getD 0 0) / d.delta))
  let eIdx := Xe.map (fun e =>
    let v := nround ((e - d.sigma_grid.getD 0 0) / d.dsigma)
    let v2 := if (d.Ndict : ℤ) ≤ v then (d.Ndict : ℤ) - 1 else v
    if v2 < 0 then 0 else v2)
  (xIdx, eIdx)

/-! ## Dictionary stacking (pdf.py lines 498-521) -/

/-- The edge-effect normaliser of pdf.py lines 513-516:
`norm = kcdf[hpad-1]` if `lpad == 0` else `kcdf[hpad-1] - kcdf[lpad-1]`.
`none` is an `IndexError` on either access. -/
def stackNorm (kcdf : List ℚ) (lpad hpad : ℤ) : Option ℚ :=
  if lpad = 0 then npGet kcdf (hpad - 1)
  else do
    let a ← npGet kcdf (hpad - 1)
    let b ← npGet kcdf (lpad - 1)
    pure (a - b)

/-- One iteration of the stacking loop of pdf.py lines 510-519 for an already
looked-up kernel: clip the window, compute the CDF normaliser, and paste
`(w / norm) * kernel[lpad : 2*width+1+hpad]` onto `pdf[low:high]`. -/
def stackObs (Nx : ℕ) (kernel : List ℚ) (width : ℤ) (kcdf : List ℚ)
    (pdf : List ℚ) (pos : ℤ) (wt : ℚ) : Option (List ℚ) :=
  let low := max (pos - width) 0
  let high := min (pos + width + 1) (Nx : ℤ)
  let lpad := low - (pos - width)
  let hpad := high - (pos + width + 1)
  match stackNorm kcdf lpad hpad with
  | none => none
  | some norm =>
      addSlice pdf low high
        ((pySlice kernel lpad (2 * width + 1 + hpad)).map (fun v => wt / norm * v))

/-- The `for i in sel_arr` loop of pdf.py lines 502-519: look up position,
kernel, width and CDF for each selected observation and stack it. -/
def stackLoop (d : PDFDict) (y_idx y_std_idx : List ℤ) (y_wt : List ℚ) :
    List ℕ → List ℚ → Option (List ℚ)
  | [], pdf => some pdf
  | i :: rest, pdf => do
      let idx ← npGet y_std_idx (i : ℤ)
      let pos ← npGet y_idx (i : ℤ)
      let kernel ← npGet d.sigma_dict idx
      let width ← npGet d.sigma_width idx
      let kcdf ← npGet d.sigma_dict_cdf idx
      let w ← npGet y_wt (i : ℤ)
      let pdf2 ← stackObs d.Ngrid kernel width kcdf pdf pos w
      stackLoop d y_idx y_std_idx y_wt rest pdf2

/-- `gauss_kde_dict` (pdf.py 428-521).  Pre-quantized `(y_idx, y_std_idx)`
win over raw `(y, y_std)`; with neither pair supplied the code raises
`ValueError`.  An empty batch raises inside every selection path
(`np.max` of an empty array, resp. `y_cdf[-1]`); a weight vector whose
length differs from `Ny` raises when the boolean mask is applied (wt path)
and misaligns weights with observations (cdf path) — both are modelled as
failure. -/
def gauss_kde_dict (d : PDFDict) (y y_std : Option (List ℚ))
    (y_idx0 y_std_idx0 : Option (List ℤ)) (y_wt0 : Option (List ℚ))
    (wt_thresh cdf_thresh : Option ℚ) : Option (List ℚ) :=
  let idxs : Option (List ℤ × List ℤ) :=
    match y_idx0, y_std_idx0 with
    | some a, some b => some (a, b)
    | _, _ =>
        match y, y_std with
        | some yv, some ys => some (d.fit yv ys)
        | _, _ => none
  match idxs with
  | none => none
  | some (y_idx, y_std_idx) =>
      let Ny := y_idx.length
      let y_wt := y_wt0.getD (List.replicate Ny 1)
      if y_wt.length = Ny ∧ 0 < Ny then
        stackLoop d y_idx y_std_idx y_wt (dictSel y_wt wt_thresh cdf_thresh)
          (List.replicate d.Ngrid 0)
      else none

/-! ## Direct KDE path (pdf.py lines 343-425) -/

/-- Discretized kernel center for `gauss_kde` (pdf.py line 398):
`np.array((y - x[0]) / dx, dtype='int')` — C-cast truncation, not rounding. -/
def kdeCenter (x0 dx yi : ℚ) : ℤ := truncQ ((yi - x0) / dx)

/-- Kernel half-width for `gauss_kde` (pdf.py line 399):
`np.array(sig_thresh * y_std / dx, dtype='int')` — truncation, not rounding. -/
def kdeOffset (sig_thresh si dx : ℚ) : ℤ := truncQ (sig_thresh * si / dx)

/-- Lower window bound of `gauss_kde` (pdf.py lines 400-401):
`lowers = centers - offsets`, then `lowers[lowers < 0] = 0`. -/
def kdeLower (c o : ℤ) : ℤ := if c - o < 0 then 0 else c - o

/-- Upper window bound of `gauss_kde` (pdf.py lines 400-401):
`uppers = centers + offsets`, then `uppers[uppers > Nx] = Nx` (no clamp
below: a far-negative upper bound stays negative and later wraps in the
Python slice). -/
def kdeUpper (Nx : ℕ) (c o : ℤ) : ℤ := if (Nx : ℤ) < c + o then (Nx : ℤ) else c + o

/-- `gauss_kde` (pdf.py 343-425), parametrised by the pointwise Gaussian
evaluator `g mu std x`.  Failures modelled as `none`: `x[1]` with fewer than
2 grid points when `dx` must be derived, `x[0]` on an empty grid,
`np.max`/`y_cdf[-1]` on an empty batch, and shape mismatches between
`y`/`y_std`/`y_wt`.  Observations whose evaluated window sums to zero are
skipped (pdf.py line 422). -/
def gauss_kde (g : ℚ → ℚ → ℚ → ℚ) (y y_std x : List ℚ) (dx0 : Option ℚ)
    (y_wt0 : Option (List ℚ)) (sig_thresh : ℚ)
    (wt_thresh cdf_thresh : Option ℚ) : Option (List ℚ) :=
  let Nx := x.length
  let Ny := y.length
  let dxO : Option ℚ :=
    match dx0 with
    | some v => some v
    | none => if 2 ≤ x.length then some (x.getD 1 0 - x.getD 0 0) else none
  match dxO with
  | none => none
  | some dx =>
      let y_wt := y_wt0.getD (List.replicate Ny 1)
      if y_std.length = Ny ∧ y_wt.length = Ny ∧ 0 < Ny ∧ 0 < Nx then
        let centers := y.map (kdeCenter (x.getD 0 0) dx)
        let offsets := y_std.map (kdeOffset sig_thresh · dx)
        let lowers := (centers.zip offsets).map (fun p => kdeLower p.1 p.2)
        let uppers := (centers.zip offsets).map (fun p => kdeUpper Nx p.1 p.2)
        let sel := dictSel y_wt wt_thresh cdf_thresh
        sel.foldlM (fun pdf i => do
            let lo ← npGet lowers (i : ℤ)
            let hi ← npGet uppers (i : ℤ)
            let yi ← npGet y (i : ℤ)
            let si ← npGet y_std (i : ℤ)
            let wi ← npGet y_wt (i : ℤ)
            let gkde := (pySlice x lo hi).map (g yi si)
            let norm := gkde.sum
            if norm = 0 then pure pdf
            else addSlice pdf lo hi (gkde.map (fun v => wi / norm * v)))
          (List.replicate Nx 0)
      else none

/-! ## Helper lemmas on the embedded primitives -/

lemma npGet_nonneg {α : Type} (xs : List α) (i : ℤ) (h : 0 ≤ i) :
    npGet xs i = xs[i.toNat]? := by
  simp only [npGet, if_neg (not_lt.mpr h), if_pos h]

lemma npGet_neg {α : Type} (xs : List α) (i : ℤ) (h : i < 0) :
    npGet xs i
      = if 0 ≤ i + xs.length then xs[(i + xs.length).toNat]? else none := by
  simp only [npGet, if_pos h]

lemma cumsum_length (xs : List ℚ) : (cumsum xs).length = xs.length := by
  simp [cumsum]

lemma cumsum_getElem? (xs : List ℚ) (j : ℕ) (h : j < xs.length) :
    (cumsum xs)[j]? = some ((xs.take (j+1)).sum) := by
  simp [cumsum, List.getElem?_range h]

/-- `npGet` on a cumulative-sum array: a successful access always returns a
prefix sum of the underlying kernel, at the (possibly wrapped) index. -/
lemma npGet_cumsum_some (kernel : List ℚ) (i : ℤ) (v : ℚ)
    (h : npGet (cumsum kernel) i = some v) :
    ∃ j : ℕ, ((j : ℤ) = if i < 0 then i + kernel.length else i)
      ∧ j < kernel.length ∧ v = (kernel.take (j+1)).sum := by
  by_cases hi : i < 0
  · rw [npGet_neg _ _ hi, cumsum_length] at h
    by_cases h0 : 0 ≤ i + (kernel.length : ℤ)
    · rw [if_pos h0] at h
      rcases List.getElem?_eq_some.mp h with ⟨hlt, hv⟩
      rw [cumsum_length] at hlt
      refine ⟨(i + kernel.length).toNat, by omega, hlt, ?_⟩
      have := cumsum_getElem? kernel (i + (kernel.length : ℤ)).toNat hlt
      rw [List.getElem?_eq_getElem (by rwa [cumsum_length])] at this
      rw [← hv]
      exact Option.some_injective _ this
    · rw [if_neg h0] at h; exact absurd h (by simp)
  · rw [npGet_nonneg _ _ (not_lt.mp hi)] at h
    rcases List.getElem?_eq_some.mp h with ⟨hlt, hv⟩
    rw [cumsum_length] at hlt
    refine ⟨i.toNat, by omega, hlt, ?_⟩
    have := cumsum_getElem? kernel i.toNat hlt
    rw [List.getElem?_eq_getElem (by rwa [cumsum_length])] at this
    rw [← hv]
    exact Option.some_injective _ this

lemma sum_take_split (xs : List ℚ) (a b : ℕ) (h : a ≤ b) :
    (xs.take b).sum = (xs.take a).sum + ((xs.drop a).take (b - a)).sum := by
  have hsplit : (xs.drop a).take (b - a) = (xs.take b).drop a := by
    rw [List.take_drop, Nat.add_sub_cancel' h]
  rw [hsplit]
  conv_lhs => rw [← List.take_append_drop a (xs.take b)]
  rw [List.sum_append, List.take_take, Nat.min_eq_left h]

lemma sum_take_pos (xs : List ℚ) (hpos : ∀ v ∈ xs, 0 < v) (n : ℕ)
    (hn : 0 < n) (hne : xs ≠ []) : 0 < (xs.take n).sum := by
  apply List.sum_pos
  · intro v hv; exact hpos v (List.take_subset n xs hv)
  · rw [← List.length_pos, List.length_take]
    have : 0 < xs.length := List.length_pos.mpr hne
    omega

lemma sum_take_lt (xs : List ℚ) (hpos : ∀ v ∈ xs, 0 < v) (a b : ℕ)
    (hab : a < b) (hb : b ≤ xs.length) :
    (xs.take a).sum < (xs.take b).sum := by
  rw [sum_take_split xs a b (le_of_lt hab)]
  have h1 : 0 < ((xs.drop a).take (b - a)).sum := by
    apply List.sum_pos
    · intro v hv
      exact hpos v (List.drop_subset a xs (List.take_subset _ _ hv))
    · rw [← List.length_pos, List.length_take, List.length_drop]; omega
  linarith

lemma sum_take_inj (xs : List ℚ) (hpos : ∀ v ∈ xs, 0 < v) (a b : ℕ)
    (ha : a ≤ xs.length) (hb : b ≤ xs.length)
    (h : (xs.take a).sum = (xs.take b).sum) : a = b := by
  rcases Nat.lt_trichotomy a b with hlt | heq | hgt
  · exact absurd h (ne_of_lt (sum_take_lt xs hpos a b hlt hb))
  · exact heq
  · exact absurd h.symm (ne_of_lt (sum_take_lt xs hpos b a hgt ha))

lemma pyClip_of_nonneg_le (n : ℕ) (i : ℤ) (h0 : 0 ≤ i) (hn : i ≤ n) :
    pyClip n i = i.toNat := by
  rw [pyClip, if_neg (not_lt.mpr h0)]; omega

lemma pySlice_eq {α : Type} (xs : List α) (a b : ℤ) (h0 : 0 ≤ a)
    (hab : a ≤ b) (hb : b ≤ xs.length) :
    pySlice xs a b = (xs.drop a.toNat).take (b.toNat - a.toNat) := by
  unfold pySlice
  rw [pyClip_of_nonneg_le _ _ h0 (by omega), pyClip_of_nonneg_le _ _ (by omega) hb]

lemma pySlice_length {α : Type} (xs : List α) (a b : ℤ) (h0 : 0 ≤ a)
    (hab : a ≤ b) (hb : b ≤ xs.length) :
    (pySlice xs a b).length = (b - a).toNat := by
  rw [pySlice_eq xs a b h0 hab hb]
  rw [List.length_take, List.length_drop]; omega

lemma pySlice_sum (xs : List ℚ) (a b : ℤ) (h0 : 0 ≤ a)
    (hab : a ≤ b) (hb : b ≤ xs.length) :
    (pySlice xs a b).sum = (xs.take b.toNat).sum - (xs.take a.toNat).sum := by
  rw [pySlice_eq xs a b h0 hab hb]
  have := sum_take_split xs a.toNat b.toNat (by omega)
  linarith

lemma pySlice_subset {α : Type} (xs : List α) (a b : ℤ) :
    pySlice xs a b ⊆ xs :=
  fun _ hv => List.drop_subset _ xs (List.take_subset _ _ hv)

lemma pySlice_self {α : Type} (xs : List α) (a : ℤ) : pySlice xs a a = [] := by
  simp [pySlice]

lemma sum_zipWith_add : ∀ (xs ys : List ℚ), xs.length = ys.length →
    (List.zipWith (fun u v => u + v) xs ys).sum = xs.sum + ys.sum
  | [], [], _ => by simp
  | x :: xs, y :: ys, h => by
      have := sum_zipWith_add xs ys (by simpa using h)
      simp only [List.zipWith, List.sum_cons, this]; ring
  | [], _ :: _, h => by simp at h
  | _ :: _, [], h => by simp at h

lemma sum_map_mul (r : ℚ) (l : List ℚ) :
    (l.map (fun v => r * v)).sum = r * l.sum := by
  induction l with
  | nil => simp
  | cons x xs ih => simp [ih, mul_add]

/-- `addSlice` for an exactly matching slice: success, the sum grows by the
sum of the pasted values, and the length is preserved. -/
lemma addSlice_spec (pdf : List ℚ) (a b : ℤ) (c : List ℚ)
    (h0 : 0 ≤ a) (hab : a ≤ b) (hb : b ≤ pdf.length)
    (hc : c.length = (b - a).toNat) :
    ∃ pdf2, addSlice pdf a b c = some pdf2
      ∧ pdf2.sum = pdf.sum + c.sum ∧ pdf2.length = pdf.length := by
  unfold addSlice
  rw [pyClip_of_nonneg_le _ _ h0 (by omega), pyClip_of_nonneg_le _ _ (by omega) hb]
  rw [if_pos (by omega)]
  set a' := a.toNat with ha'
  set len := b.toNat - a.toNat with hlen
  refine ⟨_, rfl, ?_, ?_⟩
  · have hmidlen : ((pdf.drop a').take len).length = len := by
      rw [List.length_take, List.length_drop]; omega
    rw [List.sum_append, List.sum_append,
        sum_zipWith_add _ _ (by rw [hmidlen]; omega)]
    have hdecomp : pdf.sum
        = (pdf.take a').sum + ((pdf.drop a').take len).sum
          + (pdf.drop (a' + len)).sum := by
      conv_lhs => rw [← List.take_append_drop a' pdf]
      rw [List.sum_append]
      conv_lhs => rw [← List.take_append_drop len (pdf.drop a')]
      rw [List.sum_append, List.drop_drop]
      ring
    rw [hdecomp]; ring
  · rw [List.length_append, List.length_append, List.length_zipWith,
        List.length_take, List.length_take, List.length_drop, List.length_drop]
    omega

/-- `addSlice` with empty bounds and an empty pasted array is the identity. -/
lemma addSlice_empty (pdf : List ℚ) (a : ℤ) (h0 : 0 ≤ a) (ha : a ≤ pdf.length) :
    addSlice pdf a a [] = some pdf := by
  unfold addSlice
  rw [pyClip_of_nonneg_le _ _ h0 ha]
  rw [if_pos (by simp)]
  simp

/-- The CDF-based normaliser equals the sum of the pasted kernel sub-slice,
for any pads that can arise from a non-degenerate clipped window. -/
lemma stackNorm_eq_slice_sum (kernel : List ℚ) (w : ℕ) (lpad hpad : ℤ)
    (hker : kernel.length = 2 * w + 1)
    (hl : 0 ≤ lpad) (hh : hpad ≤ 0) (hlh : lpad ≤ 2 * (w : ℤ) + hpad) :
    stackNorm (cumsum kernel) lpad hpad
      = some ((pySlice kernel lpad (2 * (w : ℤ) + 1 + hpad)).sum) := by
  have hlen : (cumsum kernel).length = 2 * w + 1 := by rw [cumsum_length, hker]
  have hhi : npGet (cumsum kernel) (hpad - 1)
      = some ((kernel.take (2 * (w : ℤ) + 1 + hpad).toNat).sum) := by
    rw [npGet_neg _ _ (by omega), hlen]
    rw [if_pos (by push_cast; omega)]
    have hj : (hpad - 1 + ((2 * w + 1 : ℕ) : ℤ)).toNat < kernel.length := by
      rw [hker]; push_cast; omega
    rw [cumsum_getElem? kernel _ hj]
    have hidx : (hpad - 1 + ((2 * w + 1 : ℕ) : ℤ)).toNat + 1
        = (2 * (w : ℤ) + 1 + hpad).toNat := by push_cast; omega
    rw [hidx]
  have hslice : (pySlice kernel lpad (2 * (w : ℤ) + 1 + hpad)).sum
      = (kernel.take (2 * (w : ℤ) + 1 + hpad).toNat).sum
        - (kernel.take lpad.toNat).sum := by
    exact pySlice_sum kernel lpad (2 * (w : ℤ) + 1 + hpad) hl (by omega)
      (by rw [hker]; push_cast; omega)
  unfold stackNorm
  by_cases h0 : lpad = 0
  · rw [if_pos h0, hhi, hslice, h0]
    simp
  · rw [if_neg h0, hhi]
    have hlo : npGet (cumsum kernel) (lpad - 1)
        = some ((kernel.take lpad.toNat).sum) := by
      rw [npGet_nonneg _ _ (by omega)]
      have hj : (lpad - 1).toNat < kernel.length := by rw [hker]; omega
      rw [cumsum_getElem? kernel _ hj]
      have hidx : (lpad - 1).toNat + 1 = lpad.toNat := by omega
      rw [hidx]
    rw [hlo, hslice]
    simp

/-- C2 (mass preservation): for an observation whose clipped kernel window is
non-empty, with a well-formed dictionary entry (`kernel` of length
`2*width+1`, strictly positive values, CDF its running cumulative sum), the
CDF normaliser `kcdf[hpad-1] - (kcdf[lpad-1] if lpad>0 else 0)` equals the
sum of the pasted sub-slice `kernel[lpad : 2*width+1+hpad]`, and the
observation's total contribution to the output is exactly its weight —
whether or not the window was clipped at either grid edge. -/
theorem stackObs_mass_preserved (Nx : ℕ) (kernel : List ℚ) (w : ℕ)
    (pdf : List ℚ) (pos : ℤ) (wt : ℚ) (low high lpad hpad : ℤ)
    (hlow : low = max (pos - (w : ℤ)) 0)
    (hhigh : high = min (pos + (w : ℤ) + 1) (Nx : ℤ))
    (hlpad : lpad = low - (pos - (w : ℤ)))
    (hhpad : hpad = high - (pos + (w : ℤ) + 1))
    (hker : kernel.length = 2 * w + 1)
    (hpos : ∀ v ∈ kernel, 0 < v)
    (hlen : pdf.length = Nx)
    (hwin : low < high) :
    stackNorm (cumsum kernel) lpad hpad
      = some ((pySlice kernel lpad (2 * (w : ℤ) + 1 + hpad)).sum)
    ∧ ∃ pdf2, stackObs Nx kernel (w : ℤ) (cumsum kernel) pdf pos wt = some pdf2
        ∧ pdf2.sum = pdf.sum + wt := by
  have hl : 0 ≤ lpad := by omega
  have hh : hpad ≤ 0 := by omega
  have hkey : high - low = 2 * (w : ℤ) + 1 + hpad - lpad := by omega
  have hlh : lpad ≤ 2 * (w : ℤ) + hpad := by omega
  have hnorm := stackNorm_eq_slice_sum kernel w lpad hpad hker hl hh hlh
  refine ⟨hnorm, ?_⟩
  set norm := (pySlice kernel lpad (2 * (w : ℤ) + 1 + hpad)).sum with hnormdef
  have hslen : (pySlice kernel lpad (2 * (w : ℤ) + 1 + hpad)).length
      = (2 * (w : ℤ) + 1 + hpad - lpad).toNat :=
    pySlice_length kernel _ _ hl (by omega) (by rw [hker]; push_cast; omega)
  have hsne : pySlice kernel lpad (2 * (w : ℤ) + 1 + hpad) ≠ [] := by
    rw [← List.length_pos, hslen]; omega
  have hnormpos : 0 < norm := by
    apply List.sum_pos
    · intro v hv; exact hpos v (pySlice_subset kernel _ _ hv)
    · exact hsne
  have hstack : stackObs Nx kernel (w : ℤ) (cumsum kernel) pdf pos wt
      = addSlice pdf low high
          ((pySlice kernel lpad (2 * (w : ℤ) + 1 + hpad)).map
            (fun v => wt / norm * v)) := by
    simp only [stackObs]
    rw [← hlow, ← hhigh, ← hlpad, ← hhpad, hnorm]
  rw [hstack]
  have hclen : ((pySlice kernel lpad (2 * (w : ℤ) + 1 + hpad)).map
      (fun v => wt / norm * v)).length = (high - low).toNat := by
    rw [List.length_map, hslen]; omega
  obtain ⟨pdf2, heq, hsum, _⟩ := addSlice_spec pdf low high _
    (by omega) (by omega) (by omega) hclen
  refine ⟨pdf2, heq, ?_⟩
  rw [hsum, sum_map_mul, ← hnormdef, div_mul_cancel₀ wt (ne_of_gt hnormpos)]

/-- Witness for `stackObs_mass_preserved`: a concrete left-clipped
observation (`pos = 0`, width 1 on a grid of 5 cells) whose contribution
sums exactly to its weight 6. -/
theorem stackObs_mass_preserved_witness :
    stackNorm (cumsum [1, 2, 1]) 1 0
        = some ((pySlice [1, 2, 1] 1 (2 * ((1 : ℕ) : ℤ) + 1 + 0)).sum)
      ∧ ∃ pdf2,
          stackObs 5 [1, 2, 1] ((1 : ℕ) : ℤ) (cumsum [1, 2, 1])
              [0, 0, 0, 0, 0] 0 6 = some pdf2
            ∧ pdf2.sum = [(0 : ℚ), 0, 0, 0, 0].sum + 6 :=
  stackObs_mass_preserved 5 [1, 2, 1] 1 [0, 0, 0, 0, 0] 0 6 0 2 1 0
    (by decide) (by decide) (by decide) (by decide) (by decide) (by decide)
    (by decide) (by decide)

/-- C3: when the retained mass `norm` computed by the stacking step is zero
(clipping removed the entire kernel), the observation contributes nothing
and the step does not fail: the accumulator is returned unchanged.  The
division `wt / norm` is never materialised on any output cell because the
pasted slice is necessarily empty (for a strictly positive kernel, the
normaliser can only be zero when the two CDF reads coincide, which forces
an empty paste window). -/
theorem stackObs_zero_norm_skips (Nx : ℕ) (kernel : List ℚ) (w : ℕ)
    (pdf : List ℚ) (pos : ℤ) (wt : ℚ) (low high lpad hpad : ℤ)
    (hlow : low = max (pos - (w : ℤ)) 0)
    (hhigh : high = min (pos + (w : ℤ) + 1) (Nx : ℤ))
    (hlpad : lpad = low - (pos - (w : ℤ)))
    (hhpad : hpad = high - (pos + (w : ℤ) + 1))
    (hker : kernel.length = 2 * w + 1)
    (hpos : ∀ v ∈ kernel, 0 < v)
    (hlen : pdf.length = Nx)
    (hnorm : stackNorm (cumsum kernel) lpad hpad = some 0) :
    stackObs Nx kernel (w : ℤ) (cumsum kernel) pdf pos wt = some pdf := by
  have hl : 0 ≤ lpad := by omega
  have hh : hpad ≤ 0 := by omega
  have hkne : kernel ≠ [] := by
    intro h; rw [h] at hker; simp at hker
  have hlpadval : lpad = 2 * (w : ℤ) + 1 + hpad := by
    unfold stackNorm at hnorm
    by_cases h0 : lpad = 0
    · rw [if_pos h0] at hnorm
      obtain ⟨j, _, _, hj3⟩ := npGet_cumsum_some kernel (hpad - 1) 0 hnorm
      have hcontra : 0 < (kernel.take (j+1)).sum :=
        sum_take_pos kernel hpos (j+1) (by omega) hkne
      rw [← hj3] at hcontra
      exact absurd hcontra (by norm_num)
    · rw [if_neg h0] at hnorm
      cases ha : npGet (cumsum kernel) (hpad - 1) with
      | none => rw [ha] at hnorm; simp at hnorm
      | some a =>
        cases hb : npGet (cumsum kernel) (lpad - 1) with
        | none => rw [ha, hb] at hnorm; simp at hnorm
        | some b =>
          rw [ha, hb] at hnorm
          have hab : a = b := by
            have : a - b = 0 := by simpa using hnorm
            linarith
          obtain ⟨ja, hja1, hja2, hja3⟩ := npGet_cumsum_some kernel (hpad - 1) a ha
          obtain ⟨jb, hjb1, hjb2, hjb3⟩ := npGet_cumsum_some kernel (lpad - 1) b hb
          rw [if_pos (by omega : hpad - 1 < 0)] at hja1
          rw [if_neg (by omega : ¬ lpad - 1 < 0)] at hjb1
          have hjj : ja + 1 = jb + 1 :=
            sum_take_inj kernel hpos (ja+1) (jb+1) (by omega) (by omega)
              (by rw [← hja3, ← hjb3, hab])
          omega
  have hlheq : low = high := by omega
  simp only [stackObs]
  rw [← hlow, ← hhigh, ← hlpad, ← hhpad, hnorm]
  have hslice : pySlice kernel lpad (2 * (w : ℤ) + 1 + hpad) = [] := by
    rw [← hlpadval]; exact pySlice_self kernel lpad
  rw [hslice]
  simp only [List.map_nil]
  rw [hlheq]
  exact addSlice_empty pdf high (by omega) (by omega)

/-- Witness for `stackObs_zero_norm_skips`: the boundary degenerate position
`pos = -width - 1 = -2`, the one off-grid case whose CDF reads both succeed;
the normaliser is `kcdf[-1] - kcdf[2] = 0` and the accumulator survives
unchanged. -/
theorem stackObs_zero_norm_skips_witness :
    stackObs 5 [1, 2, 1] ((1 : ℕ) : ℤ) (cumsum [1, 2, 1])
        [1, 1, 1, 1, 1] (-2) 7 = some [1, 1, 1, 1, 1] :=
  stackObs_zero_norm_skips 5 [1, 2, 1] 1 [1, 1, 1, 1, 1] (-2) 7 0 0 3 0
    (by decide) (by decide) (by decide) (by decide) (by decide) (by decide)
    (by decide) (by norm_num [stackNorm, npGet, cumsum])

/-! ## Concrete evaluation helpers -/

/-- A dummy pointwise kernel evaluator standing in for `gaussian` in concrete
evaluations whose outcome does not depend on the sampled values (construction
shapes, index arithmetic, raising behaviour). -/
def gOne : ℚ → ℚ → ℚ → ℚ := fun _ _ _ => 1

lemma npGet_zero {α : Type} (x : α) (xs : List α) : npGet (x :: xs) 0 = some x := by
  simp [npGet]

lemma npGet_none_of_ge {α : Type} (xs : List α) (i : ℤ)
    (h : (xs.length : ℤ) ≤ i) : npGet xs i = none := by
  rw [npGet_nonneg _ _ (by omega)]
  apply List.getElem?_eq_none
  omega

/-- The dictionary `PDFDict.init gOne [0,1,2,3,4] [1/2,1] 2` evaluates to:
grid of 5 cells, two kernels of half-widths 1 and 2 (lengths 3 and 5). -/
def C1dict : PDFDict :=
  { Ngrid := 5, min := 0, max := 4, delta := 1,
    grid := [0, 1, 2, 3, 4], Ndict := 2, sigma_grid := [1/2, 1],
    dsigma := 1/2, sigma_width := [1, 2],
    sigma_dict := [[1, 1, 1], [1, 1, 1, 1, 1]],
    sigma_dict_cdf := [[1, 2, 3], [1, 2, 3, 4, 5]] }

/-- C1 (refuted — code bug): an observation whose kernel window lies entirely
outside the grid is NOT skipped: `gauss_kde_dict` raises.  With the
well-formed dictionary `C1dict` (built by `PDFDict.init`) and the single
observation at grid index `-12` (window `[-13, -11]`, so `low = 0 >= high`),
the read `kcdf[lpad-1]` is out of range (`lpad = 13` on a CDF of length 3)
and the whole call dies with `IndexError` instead of contributing nothing;
no later observation in the batch would be processed.  The same happens at
the spec's example index `-10^6` and at any index `<= -width-2` or
`>= Ngrid+width`. -/
theorem gauss_kde_dict_far_outside_raises :
    PDFDict.init gOne [0, 1, 2, 3, 4] [1/2, 1] 2 = some C1dict
    ∧ gauss_kde_dict C1dict none none (some [-12]) (some [0]) none
        (some (1/1000)) (some (1/5000)) = none := by
  constructor
  · norm_num [PDFDict.init, gOne, pySlice, pyClip, minQ, maxQ, cumsum, C1dict,
      List.range_succ]
    norm_num [Int.toNat, List.range_succ]
  · have h1 : ∀ lp hp : ℤ, 4 ≤ lp → stackNorm ([1, 2, 3] : List ℚ) lp hp = none := by
      intro lp hp hlp
      rw [stackNorm, if_neg (by omega)]
      have hb : npGet ([1, 2, 3] : List ℚ) (lp - 1) = none :=
        npGet_none_of_ge _ _ (by simp; omega)
      simp only [hb]
      cases npGet ([1, 2, 3] : List ℚ) (hp - 1) <;> simp
    norm_num [gauss_kde_dict, dictSel, selWt, maxQ, stackLoop, stackObs,
      C1dict, List.range_succ, npGet_zero, h1]

/-- C4 counterexample: a 5-point grid with `sigma_grid = [1, 2]` and
truncation factor 5 needs half-widths 5 and 10, so both kernel slices
`grid[mid-w : mid+w+1]` leave the grid — yet construction succeeds (no
`InvalidGrid` error) and silently yields kernels of lengths 3 and 5 instead
of `2*5+1 = 11` and `2*10+1 = 21`. -/
theorem pdfdict_init_oversized_no_error :
    ((PDFDict.init gOne [0, 1, 2, 3, 4] [1, 2] 5).map
        (fun d => (d.sigma_width, d.sigma_dict.map List.length)))
      = some ([5, 10], [3, 5])
    ∧ (3 : ℕ) ≠ 2 * 5 + 1 := by
  constructor
  · norm_num [PDFDict.init, gOne, pySlice, pyClip, minQ, maxQ, cumsum,
      List.range_succ]
    decide
  · decide

/-- C4 amended: `PDFDict` construction never fails for grids with at least 2
points; in particular an oversized truncation window is never rejected — the
kernel slice is silently clamped by Python slicing (see the concrete
counterexample above for the truncated lengths). -/
theorem pdfdict_init_total (g : ℚ → ℚ → ℚ → ℚ) (pdf_grid sigma_grid : List ℚ)
    (st : ℚ) (h1 : 2 ≤ pdf_grid.length) (h2 : 2 ≤ sigma_grid.length) :
    (PDFDict.init g pdf_grid sigma_grid st).isSome = true := by
  rw [PDFDict.init, if_pos ⟨h1, h2⟩]
  rfl

/-- Witness for `pdfdict_init_total`. -/
theorem pdfdict_init_total_witness :
    (PDFDict.init gOne [0, 1] [1, 2] 5).isSome = true :=
  pdfdict_init_total gOne [0, 1] [1, 2] 5 (by decide) (by decide)

/-- C5 (refuted — code bug): under CDF-based selection with weights
`[1, 1, 1000]` and the default `cdf_thresh = 2e-4`, the selected set is
`{0, 1}` — the two negligible weights — and the dominant observation
(index 2) is dropped: its normalized cumulative weight is exactly 1, which
always exceeds `1 - cdf_thresh`.  This contradicts the docstring's stated
purpose of ignoring objects with negligible weights. -/
theorem selCdf_drops_dominant_weight :
    dictSel [1, 1, 1000] none (some (1/5000)) = [0, 1]
    ∧ (2 : ℕ) ∉ dictSel [1, 1, 1000] none (some (1/5000)) := by
  have h : dictSel [1, 1, 1000] none (some (1/5000)) = [0, 1] := by
    norm_num [dictSel, selCdf, argsortQ, insertIdx, cumsum, maxQ,
      List.range_succ, List.filterMap]
  exact ⟨h, by rw [h]; decide⟩

lemma nround_intCast (n : ℤ) : nround ((n : ℚ)) = n := by
  unfold nround
  rw [Int.floor_intCast]
  norm_num

/-- C6: quantization round-trip.  For a dictionary with uniformly spaced
grids (nonzero spacings, as built by `PDFDict.init`), `fit` maps the `j`-th
grid value back to grid index `j`, and the `k`-th sigma value back to
dictionary index `k` (the clamp to `[0, Ndict)` leaves in-range indices
untouched). -/
theorem fit_roundtrip (d : PDFDict) (j k : ℕ)
    (hgrid : ∀ i, i < d.grid.length →
      d.grid.getD i 0 = d.grid.getD 0 0 + (i : ℚ) * d.delta)
    (hdelta : d.delta ≠ 0)
    (hsg : ∀ i, i < d.sigma_grid.length →
      d.sigma_grid.getD i 0 = d.sigma_grid.getD 0 0 + (i : ℚ) * d.dsigma)
    (hdsigma : d.dsigma ≠ 0)
    (hNd : d.Ndict = d.sigma_grid.length)
    (hj : j < d.grid.length) (hk : k < d.sigma_grid.length) :
    d.fit [d.grid.getD j 0] [d.sigma_grid.getD k 0] = ([(j : ℤ)], [(k : ℤ)]) := by
  unfold PDFDict.fit
  simp only [List.map_cons, List.map_nil, Prod.mk.injEq]
  have hx : (d.grid.getD j 0 - d.grid.getD 0 0) / d.delta = ((j : ℤ) : ℚ) := by
    rw [hgrid j hj]
    push_cast
    field_simp
  have he : (d.sigma_grid.getD k 0 - d.sigma_grid.getD 0 0) / d.dsigma
      = ((k : ℤ) : ℚ) := by
    rw [hsg k hk]
    push_cast
    field_simp
  constructor
  · rw [hx, nround_intCast]
  · rw [he, nround_intCast]
    rw [if_neg (by omega), if_neg (by omega)]

/-- A concrete uniformly spaced dictionary for the `fit_roundtrip` witness. -/
def fitDict : PDFDict :=
  { Ngrid := 3, min := 0, max := 2, delta := 1, grid := [0, 1, 2],
    Ndict := 2, sigma_grid := [1, 2], dsigma := 1,
    sigma_width := [], sigma_dict := [], sigma_dict_cdf := [] }

/-- Witness for `fit_roundtrip`: grid value `2` maps to grid index `2`,
sigma value `2` to dictionary index `1`. -/
theorem fit_roundtrip_witness :
    fitDict.fit [fitDict.grid.getD 2 0] [fitDict.sigma_grid.getD 1 0]
      = ([(2 : ℤ)], [(1 : ℤ)]) :=
  fit_roundtrip fitDict 2 1
    (by
      intro i hi
      have h3 : i < 3 := by simpa [fitDict] using hi
      interval_cases i <;> norm_num [fitDict])
    (by norm_num [fitDict])
    (by
      intro i hi
      have h2 : i < 2 := by simpa [fitDict] using hi
      interval_cases i <;> norm_num [fitDict])
    (by norm_num [fitDict]) (by norm_num [fitDict]) (by norm_num [fitDict])
    (by norm_num [fitDict])

/-- C7: with `wt_thresh` provided, the selected set of `gauss_kde_dict`
(and of `gauss_kde` — both call `dictSel`) is exactly the set of indices
whose weight strictly exceeds `wt_thresh * max(weights)`; for weights
`[1, 1, 1000]` and `wt_thresh = 1/2` only index 2 survives. -/
theorem dictSel_wt_characterization :
    (∀ (ws : List ℚ) (t : ℚ) (c : Option ℚ) (j : ℕ),
        j ∈ dictSel ws (some t) c ↔ j < ws.length ∧ t * maxQ ws < ws.getD j 0)
    ∧ dictSel [1, 1, 1000] (some (1/2)) none = [2] := by
  constructor
  · intro ws t c j
    simp [dictSel, selWt, List.mem_filter, List.mem_range]
  · norm_num [dictSel, selWt, maxQ, List.range_succ]

/-- C9: when both the raw pair and the pre-quantized pair are supplied, the
pre-quantized indices win and the raw values have no influence: the call is
definitionally the same as with the raw pair omitted. -/
theorem gauss_kde_dict_prequantized_precedence (d : PDFDict)
    (y y_std : List ℚ) (yi ysi : List ℤ) (y_wt : Option (List ℚ))
    (wt cdf : Option ℚ) :
    gauss_kde_dict d (some y) (some y_std) (some yi) (some ysi) y_wt wt cdf
      = gauss_kde_dict d none none (some yi) (some ysi) y_wt wt cdf := rfl

lemma le_foldl_max (as : List ℚ) (a : ℚ) : a ≤ as.foldl max a := by
  induction as generalizing a with
  | nil => simp
  | cons b bs ih => exact le_trans (le_max_left a b) (ih (max a b))

lemma foldl_max_mem (as : List ℚ) (a : ℚ) :
    as.foldl max a = a ∨ as.foldl max a ∈ as := by
  induction as generalizing a with
  | nil => left; rfl
  | cons b bs ih =>
      simp only [List.foldl_cons]
      rcases ih (max a b) with h | h
      · rcases max_choice a b with hab | hab
        · left; rw [h, hab]
        · right; rw [h, hab]; exact List.mem_cons_self b bs
      · right; exact List.mem_cons_of_mem b h

lemma maxQ_mem (ws : List ℚ) (h : ws ≠ []) : maxQ ws ∈ ws := by
  cases ws with
  | nil => exact absurd rfl h
  | cons a as =>
      show as.foldl max a ∈ a :: as
      rcases foldl_max_mem as a with h1 | h1
      · rw [h1]; exact List.mem_cons_self a as
      · exact List.mem_cons_of_mem a h1

/-- C10: for a non-empty weight vector with strictly positive maximum and a
threshold `0 < wt_thresh < 1`, the amplitude selection keeps every index
attaining the maximum weight, so it never empties the batch. -/
theorem selWt_keeps_max_weight (ws : List ℚ) (t : ℚ) (c : Option ℚ)
    (hne : ws ≠ []) (ht0 : 0 < t) (ht1 : t < 1) (hm : 0 < maxQ ws) :
    (∀ j, j < ws.length → ws.getD j 0 = maxQ ws → j ∈ dictSel ws (some t) c)
    ∧ dictSel ws (some t) c ≠ [] := by
  have hmem : ∀ j, j < ws.length → ws.getD j 0 = maxQ ws
      → j ∈ dictSel ws (some t) c := by
    intro j hj hval
    show j ∈ selWt ws t
    rw [selWt, List.mem_filter]
    refine ⟨List.mem_range.mpr hj, ?_⟩
    rw [decide_eq_true_eq, hval]
    calc t * maxQ ws < 1 * maxQ ws := by
          exact mul_lt_mul_of_pos_right ht1 hm
      _ = maxQ ws := one_mul _
  refine ⟨hmem, ?_⟩
  obtain ⟨n, hn, hval⟩ := List.mem_iff_getElem.mp (maxQ_mem ws hne)
  have hmm : n ∈ dictSel ws (some t) c := by
    apply hmem n hn
    rw [List.getD_eq_getElem?_getD, List.getElem?_eq_getElem hn]
    simpa using hval
  exact List.ne_nil_of_mem hmm

/-- Witness for `selWt_keeps_max_weight` at weights `[3, 5]`, threshold 1/2. -/
theorem selWt_keeps_max_weight_witness :
    (∀ j, j < [(3 : ℚ), 5].length → [(3 : ℚ), 5].getD j 0 = maxQ [3, 5]
      → j ∈ dictSel [3, 5] (some (1/2)) none)
    ∧ dictSel [(3 : ℚ), 5] (some (1/2)) none ≠ [] :=
  selWt_keeps_max_weight [3, 5] (1/2) none (by decide) (by norm_num)
    (by norm_num) (by norm_num [maxQ])

/-- C8 counterexample: the half-width in `gauss_kde` is the C-cast
`int(sig_thresh * sigma / dx)` — truncation toward zero — not rounding:
for `sig_thresh = 5`, `sigma = 0.54`, `dx = 1` the code uses half-width 2
while rounding would give 3. -/
theorem kdeOffset_truncates_not_rounds :
    kdeOffset 5 (27/50) 1 = 2 ∧ nround (5 * (27/50) / 1) = 3
      ∧ (2 : ℤ) ≠ 3 := by
  refine ⟨?_, ?_, by decide⟩
  · norm_num [kdeOffset, truncQ]
  · norm_num [nround]

/-- C8 amended: each `gauss_kde` window is `[c - o, c + o)` (upper bound
exclusive) with half-width `o` obtained by truncation toward zero of
`sig_thresh * sigma / dx`; the lower bound is clamped below at 0 and the
upper bound clamped above at `Ngrid` (`min`/`max` closed forms of the
masked assignments in the code). -/
theorem kde_window_clamped (Nx : ℕ) (c o : ℤ) (st si dx : ℚ) :
    kdeLower c o = max (c - o) 0 ∧ kdeUpper Nx c o = min (c + o) (Nx : ℤ)
      ∧ kdeOffset st si dx = truncQ (st * si / dx) := by
  refine ⟨?_, ?_, rfl⟩
  · rw [kdeLower]; split <;> omega
  · rw [kdeUpper]; split <;> omega

end Frankenz
